import Mathlib

/-!
Shallow embedding of `scripts/assembly_example.py`.

The embedding covers the two algorithmic cores of the script:

* the frame builder / pose synthesizer in `main` (lines 311-344): extraction of
  the sensed z-axis from the nut orientation quaternion via
  `tf.transformations.quaternion_matrix`, the `np.isclose(z_axis[2], 1)`
  degenerate-branch test, the cross-product construction of the orthonormal
  basis, and the quaternion composition
  `q = tft.quaternion_multiply(q2, tft.quaternion_from_matrix(mat))`;

* the screw-progress control loop in `AssemblyDemo.screw` (lines 188-225),
  modelled as a state-transition function driven by an angle oracle
  (`move_group.get_current_joint_values()[6]`) and a height-sample feed
  (`rospy.wait_for_message('/screw_pos', ...)`); a feed entry of `none` models
  a sensor feed that stops producing samples (the blocking wait never returns).

Floating-point values are modelled as real numbers; the helper functions from
`tf.transformations` (`quaternion_matrix`, `quaternion_from_euler` for the
`sxyz` convention used by every call site, `quaternion_from_matrix`,
`quaternion_multiply`) are translated entry by entry from their Python source.
-/

/-- A length-3 real vector (a numpy array of shape (3,)). -/
@[ext] structure Vec3 where
  x : ℝ
  y : ℝ
  z : ℝ

/-- Euclidean inner product of two 3-vectors (`np.dot`). -/
def dot3 (a b : Vec3) : ℝ := a.x * b.x + a.y * b.y + a.z * b.z

/-- Cross product of two 3-vectors (`np.cross`). -/
def cross3 (a b : Vec3) : Vec3 :=
  ⟨a.y * b.z - a.z * b.y, a.z * b.x - a.x * b.z, a.x * b.y - a.y * b.x⟩

/-- Euclidean norm (`np.linalg.norm`). -/
noncomputable def norm3 (v : Vec3) : ℝ := Real.sqrt (dot3 v v)

/-- Componentwise division by the norm (`v /= np.linalg.norm(v)`).
In the reals, division by a zero norm yields the zero vector where numpy
would produce NaN/inf entries; either way the result is not a unit vector. -/
noncomputable def normalize3 (v : Vec3) : Vec3 :=
  ⟨v.x / norm3 v, v.y / norm3 v, v.z / norm3 v⟩

/-- The world up reference axis `np.array([0, 0, 1])`. -/
def up3 : Vec3 := ⟨0, 0, 1⟩

/-- `math.tau` as imported by the script. -/
noncomputable def tau : ℝ := 2 * Real.pi

/-- A quaternion in the (x, y, z, w) component order used by
`tf.transformations` and `geometry_msgs`. -/
@[ext] structure Quat where
  x : ℝ
  y : ℝ
  z : ℝ
  w : ℝ

/-- `numpy.dot(q, q)` for a quaternion, the squared norm `nq` appearing in
`tf.transformations.quaternion_matrix`. -/
def quatNormSq (q : Quat) : ℝ := q.x ^ 2 + q.y ^ 2 + q.z ^ 2 + q.w ^ 2

/-- `_EPS = numpy.finfo(float64).eps * 4.0` from `tf.transformations`. -/
noncomputable def tftEPS : ℝ := 4 / 2 ^ 52

/-- The 4x4 homogeneous rotation matrix of `tf.transformations.quaternion_matrix`.
If `nq < _EPS` the identity matrix is returned; otherwise the entries are the
outer products of the quaternion rescaled by `sqrt(2 / nq)`, written out here
with the exact value `2 * qi * qj / nq` of each rescaled product.
Indices outside 0..3 never occur at any call site. -/
noncomputable def quaternionMatrix (q : Quat) : ℕ → ℕ → ℝ :=
  if quatNormSq q < tftEPS then
    fun r c => if r = c then 1 else 0
  else
    fun r c =>
      match r, c with
      | 0, 0 => 1 - 2 * (q.y ^ 2 + q.z ^ 2) / quatNormSq q
      | 0, 1 => 2 * (q.x * q.y - q.z * q.w) / quatNormSq q
      | 0, 2 => 2 * (q.x * q.z + q.y * q.w) / quatNormSq q
      | 1, 0 => 2 * (q.x * q.y + q.z * q.w) / quatNormSq q
      | 1, 1 => 1 - 2 * (q.x ^ 2 + q.z ^ 2) / quatNormSq q
      | 1, 2 => 2 * (q.y * q.z - q.x * q.w) / quatNormSq q
      | 2, 0 => 2 * (q.x * q.z - q.y * q.w) / quatNormSq q
      | 2, 1 => 2 * (q.y * q.z + q.x * q.w) / quatNormSq q
      | 2, 2 => 1 - 2 * (q.x ^ 2 + q.y ^ 2) / quatNormSq q
      | 3, 3 => 1
      | _, _ => 0

/-- `z_axis = tft.quaternion_matrix(q)[:-1, 2]`: rows 0..2 of column 2. -/
noncomputable def zAxisOf (q : Quat) : Vec3 :=
  ⟨quaternionMatrix q 0 2, quaternionMatrix q 1 2, quaternionMatrix q 2 2⟩

/-- `np.isclose(a, b)` with the default tolerances
`rtol = 1e-05`, `atol = 1e-08`. -/
def npIsclose (a b : ℝ) : Prop := |a - b| ≤ 1e-8 + 1e-5 * |b|

noncomputable instance (a b : ℝ) : Decidable (npIsclose a b) := by
  unfold npIsclose; infer_instance

/-- `tf.transformations.quaternion_from_euler(ai, aj, ak)` for the default
axis convention `sxyz` (the only one used by the script): firstaxis 0,
parity 0, repetition 0, frame 0, hence `i, j, k = 0, 1, 2`. -/
noncomputable def quaternionFromEuler (ai aj ak : ℝ) : Quat :=
  let ci := Real.cos (ai / 2); let si := Real.sin (ai / 2)
  let cj := Real.cos (aj / 2); let sj := Real.sin (aj / 2)
  let ck := Real.cos (ak / 2); let sk := Real.sin (ak / 2)
  ⟨cj * (si * ck) - sj * (ci * sk),
   cj * (si * sk) + sj * (ci * ck),
   cj * (ci * sk) - sj * (si * ck),
   cj * (ci * ck) + sj * (si * sk)⟩

/-- `tf.transformations.quaternion_multiply(quaternion1, quaternion0)`:
the Hamilton product with `q1` as the left (outer) factor. -/
def quaternionMultiply (q1 q0 : Quat) : Quat :=
  ⟨q1.x * q0.w + q1.y * q0.z - q1.z * q0.y + q1.w * q0.x,
   -q1.x * q0.z + q1.y * q0.w + q1.z * q0.x + q1.w * q0.y,
   q1.x * q0.y - q1.y * q0.x + q1.z * q0.w + q1.w * q0.z,
   -q1.x * q0.x - q1.y * q0.y - q1.z * q0.z + q1.w * q0.w⟩

/-- `tf.transformations.quaternion_from_matrix(matrix)`: trace test, the
`i, j, k` index rotation picked by the two comparisons, and the common
rescaling by `0.5 / sqrt(t * M[3, 3])`. -/
noncomputable def quaternionFromMatrix (M : ℕ → ℕ → ℝ) : Quat :=
  let t := M 0 0 + M 1 1 + M 2 2 + M 3 3
  if M 3 3 < t then
    let s := 0.5 / Real.sqrt (t * M 3 3)
    ⟨(M 2 1 - M 1 2) * s, (M 0 2 - M 2 0) * s, (M 1 0 - M 0 1) * s, t * s⟩
  else
    let p : ℕ × ℕ × ℕ := if M 0 0 < M 1 1 then (1, 2, 0) else (0, 1, 2)
    let p : ℕ × ℕ × ℕ := if M p.1 p.1 < M 2 2 then (2, 0, 1) else p
    let i := p.1
    let j := p.2.1
    let k := p.2.2
    let t2 := M i i - (M j j + M k k) + M 3 3
    let s := 0.5 / Real.sqrt (t2 * M 3 3)
    let qr : ℕ → ℝ := fun idx =>
      if idx = i then t2
      else if idx = j then M i j + M j i
      else if idx = k then M k i + M i k
      else M k j - M j k
    ⟨qr 0 * s, qr 1 * s, qr 2 * s, qr 3 * s⟩

/-- `mat = np.array([[*z_axis, 0.0], [*x_axis, 0.0], [*y_axis, 0.0],
[0.0, 0.0, 0.0, 1.0]]).T`: the homogeneous matrix whose columns are the
three basis vectors. -/
def matFromAxes (zA xA yA : Vec3) : ℕ → ℕ → ℝ := fun r c =>
  match r, c with
  | 0, 0 => zA.x | 0, 1 => xA.x | 0, 2 => yA.x
  | 1, 0 => zA.y | 1, 1 => xA.y | 1, 2 => yA.y
  | 2, 0 => zA.z | 2, 1 => xA.z | 2, 2 => yA.z
  | 3, 3 => 1
  | _, _ => 0

/-- The values selected by the degenerate/general branch of `main`
(lines 315-331): the basis axes, the secondary offset quaternion `q2`,
the two fixture position offsets, and the fixture orientation `q_fixture`. -/
structure FrameResult where
  zAxis : Vec3
  xAxis : Vec3
  yAxis : Vec3
  q2 : Quat
  posOffsetFixtureX : ℝ
  posOffsetFixtureZ : ℝ
  qFixture : Quat

/-- Lines 313-331 of `main`: extract the sensed z-axis, test
`np.isclose(z_axis[2], 1)`, and select either the fixed canonical basis and
offsets of the degenerate branch or the cross-product construction and
offsets of the general branch. -/
noncomputable def frameBuilder (q : Quat) : FrameResult :=
  let zA := zAxisOf q
  if npIsclose zA.z 1 then
    { zAxis := ⟨1, 0, 0⟩
      xAxis := ⟨0, 1, 0⟩
      yAxis := ⟨0, 0, 1⟩
      q2 := quaternionFromEuler Real.pi 0 (-(tau / 8))
      posOffsetFixtureX := -0.0
      posOffsetFixtureZ := 0.07
      qFixture := quaternionFromEuler Real.pi 0 (tau / 8) }
  else
    let xA := normalize3 (cross3 zA up3)
    let yA := normalize3 (cross3 zA xA)
    { zAxis := zA
      xAxis := xA
      yAxis := yA
      q2 := quaternionFromEuler 0 0 (-(Real.pi / 4))
      posOffsetFixtureX := -0.1027
      posOffsetFixtureZ := 0
      qFixture := quaternionFromEuler (-(tau / 4)) (-(tau / 8)) (-(tau / 4)) }

/-- Line 335 of `main`: `q = tft.quaternion_from_matrix(mat)`, the
quaternion derived from the constructed frame. -/
noncomputable def frameQuat (q : Quat) : Quat :=
  let F := frameBuilder q
  quaternionFromMatrix (matFromAxes F.zAxis F.xAxis F.yAxis)

/-- Line 336 of `main`: `q = tft.quaternion_multiply(q2, q)`, the synthesized
grasp orientation, with the branch-specific offset `q2` as the leading
factor and the frame-derived quaternion as the trailing factor. -/
noncomputable def graspOrientation (q : Quat) : Quat :=
  quaternionMultiply (frameBuilder q).q2 (frameQuat q)

/-! ## Screw-progress controller (`AssemblyDemo.screw`, lines 188-225)

The loop is driven by two external collaborators, modelled as oracles:

* `angles : ℕ → ℝ` gives the wrist joint value `joint_goal[6]` read by
  `move_group.get_current_joint_values()` at the top of iteration `i`;
* `feed : ℕ → Option ℝ` gives the height sample `screw_pos_msg.point.z`
  delivered by the `i`-th in-loop `rospy.wait_for_message('/screw_pos', ...)`;
  `none` models a feed that never delivers that sample, so the blocking wait
  never returns and the run is cut off (`screwRun` becomes `none`).
-/

/-- The externally visible actuation steps of one loop iteration. -/
inductive ScrewAction where
  | openGripper
  | closeGripper
  | settle
  | goJoint (θ : ℝ)
  | waitSample

/-- Loop state: `z0`, `z1`, `z2` are the three height variables of
`screw` (lines 201-203), `iters` counts executed loop bodies, `trace`
records the actuation steps issued so far. -/
structure ScrewState where
  z0 : ℝ
  z1 : ℝ
  z2 : ℝ
  iters : ℕ
  trace : List ScrewAction

/-- Lines 199-203: after the initial blocking sample `z0`, the code sets
`z1 = z0; z2 = z0` before entering the loop. -/
def screwInit (z0 : ℝ) : ScrewState := ⟨z0, z0, z0, 0, []⟩

/-- Lines 210-221: the branch on `joint_goal[6] >= np.pi / 2`.
At or above the forward limit: open the gripper, command the joint back to
`-7π/8`. Below it: close the gripper, dwell (`rospy.sleep(1)`), command the
joint to `7π/8`. -/
noncomputable def screwIterActions (angle : ℝ) : List ScrewAction :=
  if angle ≥ Real.pi / 2 then
    [ScrewAction.openGripper, ScrewAction.goJoint (-7 * Real.pi / 8)]
  else
    [ScrewAction.closeGripper, ScrewAction.settle,
     ScrewAction.goJoint (7 * Real.pi / 8)]

/-- The joint value commanded by the iteration whose read angle is `angle`
(the value assigned to `joint_goal[6]` before `move_group.go`). -/
noncomputable def screwCmd (angle : ℝ) : ℝ :=
  if angle ≥ Real.pi / 2 then -7 * Real.pi / 8 else 7 * Real.pi / 8

/-- One execution of the loop body: actuate according to the read angle,
then block for the next height sample and store it in `z2` (lines 223-225).
If the feed never delivers the sample, the body never completes. -/
noncomputable def screwStep (angles : ℕ → ℝ) (feed : ℕ → Option ℝ)
    (s : ScrewState) : Option ScrewState :=
  (feed s.iters).map fun zNew =>
    { s with
      z2 := zNew
      iters := s.iters + 1
      trace := s.trace ++ screwIterActions (angles s.iters) ++
        [ScrewAction.waitSample] }

/-- The state after `n` completed executions of the loop body. -/
noncomputable def screwRun (angles : ℕ → ℝ) (feed : ℕ → Option ℝ) (z0 : ℝ) :
    ℕ → Option ScrewState
  | 0 => some (screwInit z0)
  | n + 1 => (screwRun angles feed z0 n).bind (screwStep angles feed)

/-- The exit condition of `while z0 - z2 < 0.006`: the loop leaves (the Done
state is reached) exactly when `z0 - z2 ≥ 0.006`. -/
def screwDone (s : ScrewState) : Prop := s.z0 - s.z2 ≥ 0.006

/-- The loop executes exactly `n` iterations and then terminates: the exit
condition holds after `n` bodies and after no earlier prefix. -/
def screwTerminatesAt (angles : ℕ → ℝ) (feed : ℕ → Option ℝ) (z0 : ℝ)
    (n : ℕ) : Prop :=
  (∃ s, screwRun angles feed z0 n = some s ∧ screwDone s) ∧
  ∀ k < n, ∀ s, screwRun angles feed z0 k = some s → ¬ screwDone s

/-- Modelled from the spec: the screw controller with the intermediate
height variable `z1` (the apparent dead variable of design note §9)
removed; used only to compare against `screwRun`. -/
structure ScrewStateNZ where
  z0 : ℝ
  z2 : ℝ
  iters : ℕ
  trace : List ScrewAction

/-- Modelled from the spec: loop body of the `z1`-free controller. -/
noncomputable def screwStepNZ (angles : ℕ → ℝ) (feed : ℕ → Option ℝ)
    (s : ScrewStateNZ) : Option ScrewStateNZ :=
  (feed s.iters).map fun zNew =>
    { s with
      z2 := zNew
      iters := s.iters + 1
      trace := s.trace ++ screwIterActions (angles s.iters) ++
        [ScrewAction.waitSample] }

/-- Modelled from the spec: run of the `z1`-free controller. -/
noncomputable def screwRunNZ (angles : ℕ → ℝ) (feed : ℕ → Option ℝ) (z0 : ℝ) :
    ℕ → Option ScrewStateNZ
  | 0 => some ⟨z0, z0, 0, []⟩
  | n + 1 => (screwRunNZ angles feed z0 n).bind (screwStepNZ angles feed)

/-- Exit condition of the `z1`-free controller. -/
def screwDoneNZ (s : ScrewStateNZ) : Prop := s.z0 - s.z2 ≥ 0.006

/-- Termination of the `z1`-free controller. -/
def screwTerminatesAtNZ (angles : ℕ → ℝ) (feed : ℕ → Option ℝ) (z0 : ℝ)
    (n : ℕ) : Prop :=
  (∃ s, screwRunNZ angles feed z0 n = some s ∧ screwDoneNZ s) ∧
  ∀ k < n, ∀ s, screwRunNZ angles feed z0 k = some s → ¬ screwDoneNZ s

/-- Forgetting the dead variable `z1`. -/
def eraseZ1 (s : ScrewState) : ScrewStateNZ := ⟨s.z0, s.z2, s.iters, s.trace⟩

/-- The synthetic height-sample feed of spec §8: initial sample 0.100,
then per-iteration samples 0.100, 0.098, 0.096, 0.093. -/
noncomputable def feedC5 : ℕ → Option ℝ
  | 0 => some 0.100
  | 1 => some 0.098
  | 2 => some 0.096
  | _ => some 0.093

/-- A joint-angle sequence coupled to the loop commands: the first read is at
the forward limit, every later read returns the previously commanded value. -/
noncomputable def anglesPlant : ℕ → ℝ
  | 0 => Real.pi
  | n + 1 => screwCmd (anglesPlant n)

/-! ## Helper lemmas about the screw-loop run -/

theorem screwRun_fields (angles : ℕ → ℝ) (feed : ℕ → Option ℝ) (z0 : ℝ) :
    ∀ n s, screwRun angles feed z0 n = some s →
      s.z0 = z0 ∧ s.z1 = z0 ∧ s.iters = n := by
  intro n
  induction n with
  | zero =>
    intro s hs
    have h : screwInit z0 = s := by simpa [screwRun] using hs
    subst h
    simp [screwInit]
  | succ n ih =>
    intro s hs
    rw [screwRun] at hs
    rcases Option.bind_eq_some.mp hs with ⟨s0, h0, hstep⟩
    simp only [screwStep] at hstep
    rcases Option.map_eq_some'.mp hstep with ⟨zv, _, hupd⟩
    rcases ih s0 h0 with ⟨hz0, hz1, hit⟩
    subst hupd
    simp [hz0, hz1, hit]

theorem screwRun_z2 (angles : ℕ → ℝ) (feed : ℕ → Option ℝ) (z0 : ℝ) :
    ∀ n s, screwRun angles feed z0 (n + 1) = some s → feed n = some s.z2 := by
  intro n s hs
  rw [screwRun] at hs
  rcases Option.bind_eq_some.mp hs with ⟨s0, h0, hstep⟩
  have hit : s0.iters = n := (screwRun_fields angles feed z0 n s0 h0).2.2
  simp only [screwStep] at hstep
  rcases Option.map_eq_some'.mp hstep with ⟨zv, hz, hupd⟩
  subst hupd
  rw [hit] at hz
  simpa using hz

theorem screwRun_mono (angles : ℕ → ℝ) (feed : ℕ → Option ℝ) (z0 : ℝ) :
    ∀ n, (screwRun angles feed z0 n).isSome →
      ∀ k, k ≤ n → (screwRun angles feed z0 k).isSome := by
  intro n
  induction n with
  | zero =>
    intro h k hk
    interval_cases k
    exact h
  | succ n ih =>
    intro h k hk
    have hn : (screwRun angles feed z0 n).isSome := by
      rcases Option.isSome_iff_exists.mp h with ⟨s, hs⟩
      rw [screwRun] at hs
      rcases Option.bind_eq_some.mp hs with ⟨s0, h0, _⟩
      exact Option.isSome_iff_exists.mpr ⟨s0, h0⟩
    rcases Nat.lt_or_ge k (n + 1) with hlt | hge
    · exact ih hn k (Nat.lt_succ_iff.mp hlt)
    · have : k = n + 1 := le_antisymm hk hge
      subst this
      exact h

theorem screwRun_total (angles : ℕ → ℝ) (feed : ℕ → Option ℝ) (z0 : ℝ) :
    ∀ n, (∀ j, j < n → (feed j).isSome) →
      (screwRun angles feed z0 n).isSome := by
  intro n
  induction n with
  | zero => intro _; simp [screwRun]
  | succ n ih =>
    intro h
    have hn := ih (fun j hj => h j (Nat.lt_succ_of_lt hj))
    rcases Option.isSome_iff_exists.mp hn with ⟨s, hs⟩
    have hit : s.iters = n := (screwRun_fields angles feed z0 n s hs).2.2
    rcases Option.isSome_iff_exists.mp (h n (Nat.lt_succ_self n)) with ⟨zv, hz⟩
    rw [screwRun, hs]
    simp [screwStep, hit, hz]

theorem screwRun_succ_of_some (angles : ℕ → ℝ) (feed : ℕ → Option ℝ)
    (z0 : ℝ) (n : ℕ) (s : ScrewState)
    (h : screwRun angles feed z0 n = some s) :
    screwRun angles feed z0 (n + 1) =
      (feed n).map fun zNew =>
        { s with
          z2 := zNew
          iters := n + 1
          trace := s.trace ++ screwIterActions (angles n) ++
            [ScrewAction.waitSample] } := by
  have hit : s.iters = n := (screwRun_fields angles feed z0 n s h).2.2
  rw [screwRun, h]
  simp [screwStep, hit]

/-! ## Helper lemmas about the frame builder -/

theorem zAxisOf_of_unit (q : Quat) (h : quatNormSq q = 1) :
    zAxisOf q = ⟨2 * (q.x * q.z + q.y * q.w), 2 * (q.y * q.z - q.x * q.w),
      1 - 2 * (q.x ^ 2 + q.y ^ 2)⟩ := by
  unfold zAxisOf quaternionMatrix
  rw [if_neg (by rw [h]; norm_num [tftEPS])]
  rw [h]
  norm_num

theorem frameBuilder_pos (q : Quat) (h : npIsclose (zAxisOf q).z 1) :
    frameBuilder q =
      { zAxis := ⟨1, 0, 0⟩
        xAxis := ⟨0, 1, 0⟩
        yAxis := ⟨0, 0, 1⟩
        q2 := quaternionFromEuler Real.pi 0 (-(tau / 8))
        posOffsetFixtureX := -0.0
        posOffsetFixtureZ := 0.07
        qFixture := quaternionFromEuler Real.pi 0 (tau / 8) } := by
  simp only [frameBuilder]
  rw [if_pos h]

theorem frameBuilder_neg (q : Quat) (h : ¬ npIsclose (zAxisOf q).z 1) :
    frameBuilder q =
      { zAxis := zAxisOf q
        xAxis := normalize3 (cross3 (zAxisOf q) up3)
        yAxis := normalize3 (cross3 (zAxisOf q)
          (normalize3 (cross3 (zAxisOf q) up3)))
        q2 := quaternionFromEuler 0 0 (-(Real.pi / 4))
        posOffsetFixtureX := -0.1027
        posOffsetFixtureZ := 0
        qFixture :=
          quaternionFromEuler (-(tau / 4)) (-(tau / 8)) (-(tau / 4)) } := by
  simp only [frameBuilder]
  rw [if_neg h]

theorem dot3_self_nonneg (v : Vec3) : 0 ≤ dot3 v v := by
  unfold dot3
  nlinarith [mul_self_nonneg v.x, mul_self_nonneg v.y, mul_self_nonneg v.z]

theorem norm3_mul_self (v : Vec3) : norm3 v * norm3 v = dot3 v v :=
  Real.mul_self_sqrt (dot3_self_nonneg v)

theorem dot3_normalize_self (v : Vec3) (h : dot3 v v ≠ 0) :
    dot3 (normalize3 v) (normalize3 v) = 1 := by
  have h1 : dot3 (normalize3 v) (normalize3 v) =
      dot3 v v / (norm3 v * norm3 v) := by
    unfold normalize3 dot3
    ring
  rw [h1, norm3_mul_self, div_self h]

theorem dot3_normalize_right (a v : Vec3) :
    dot3 a (normalize3 v) = dot3 a v / norm3 v := by
  unfold normalize3 dot3
  ring

theorem dot3_normalize_left (v a : Vec3) :
    dot3 (normalize3 v) a = dot3 v a / norm3 v := by
  unfold normalize3 dot3
  ring

theorem norm3_normalize (v : Vec3) (h : dot3 v v ≠ 0) :
    norm3 (normalize3 v) = 1 := by
  unfold norm3
  rw [dot3_normalize_self v h, Real.sqrt_one]

theorem dot3_cross_left (a b : Vec3) : dot3 a (cross3 a b) = 0 := by
  unfold dot3 cross3
  ring

theorem dot3_cross_right (a b : Vec3) : dot3 b (cross3 a b) = 0 := by
  unfold dot3 cross3
  ring

theorem cross3_dot_self (a b : Vec3) :
    dot3 (cross3 a b) (cross3 a b) =
      dot3 a a * dot3 b b - dot3 a b * dot3 a b := by
  unfold dot3 cross3
  ring

theorem cross3_up3 (z : Vec3) : cross3 z up3 = ⟨z.y, -z.x, 0⟩ := by
  simp [cross3, up3]

theorem zAxis_unit (q : Quat) (h : quatNormSq q = 1) :
    dot3 (zAxisOf q) (zAxisOf q) = 1 := by
  rw [zAxisOf_of_unit q h]
  unfold quatNormSq at h
  unfold dot3
  linear_combination (4 * (q.x ^ 2 + q.y ^ 2)) * h

theorem basis_orthonormal (z : Vec3) (hzz : dot3 z z = 1)
    (hne : dot3 (cross3 z up3) (cross3 z up3) ≠ 0) :
    dot3 z (normalize3 (cross3 z up3)) = 0 ∧
    dot3 z (normalize3 (cross3 z (normalize3 (cross3 z up3)))) = 0 ∧
    dot3 (normalize3 (cross3 z up3))
      (normalize3 (cross3 z (normalize3 (cross3 z up3)))) = 0 ∧
    norm3 (normalize3 (cross3 z up3)) = 1 ∧
    norm3 (normalize3 (cross3 z (normalize3 (cross3 z up3)))) = 1 := by
  have hx1 : dot3 z (normalize3 (cross3 z up3)) = 0 := by
    rw [dot3_normalize_right, dot3_cross_left, zero_div]
  have hxx : dot3 (normalize3 (cross3 z up3)) (normalize3 (cross3 z up3)) = 1 :=
    dot3_normalize_self _ hne
  have huu : dot3 (cross3 z (normalize3 (cross3 z up3)))
      (cross3 z (normalize3 (cross3 z up3))) = 1 := by
    rw [cross3_dot_self, hzz, hxx, hx1]
    ring
  have huu0 : dot3 (cross3 z (normalize3 (cross3 z up3)))
      (cross3 z (normalize3 (cross3 z up3))) ≠ 0 := by
    rw [huu]
    norm_num
  refine ⟨hx1, ?_, ?_, norm3_normalize _ hne, norm3_normalize _ huu0⟩
  · rw [dot3_normalize_right, dot3_cross_left, zero_div]
  · rw [dot3_normalize_right, dot3_cross_right, zero_div]

theorem zAxisOf_antiparallel : zAxisOf ⟨1, 0, 0, 0⟩ = ⟨0, 0, -1⟩ := by
  rw [zAxisOf_of_unit ⟨1, 0, 0, 0⟩ (by norm_num [quatNormSq])]
  norm_num

theorem not_isclose_antiparallel : ¬ npIsclose (zAxisOf ⟨1, 0, 0, 0⟩).z 1 := by
  rw [zAxisOf_antiparallel]
  norm_num [npIsclose]

theorem cross3_antiparallel_up3 :
    cross3 (zAxisOf ⟨1, 0, 0, 0⟩) up3 = ⟨0, 0, 0⟩ := by
  rw [zAxisOf_antiparallel, cross3_up3]
  norm_num

theorem frameBuilder_antiparallel_xAxis :
    (frameBuilder ⟨1, 0, 0, 0⟩).xAxis = ⟨0, 0, 0⟩ := by
  rw [frameBuilder_neg ⟨1, 0, 0, 0⟩ not_isclose_antiparallel]
  dsimp only
  rw [cross3_antiparallel_up3]
  norm_num [normalize3, norm3, dot3, Real.sqrt_zero]

/-! ## Claim theorems: screw-progress controller -/

/-- C10: for every height-sample sequence the screw loop executes its body at
least once before it can terminate; the first exit test compares the entry
height against itself (progress 0 < 0.006), so the Done state is never
reached with zero iterations. -/
theorem screw_no_zero_iteration_exit (angles : ℕ → ℝ) (feed : ℕ → Option ℝ)
    (z0 : ℝ) :
    ¬ screwTerminatesAt angles feed z0 0 ∧
    ∀ n, screwTerminatesAt angles feed z0 n → 1 ≤ n := by
  have h0 : ¬ screwTerminatesAt angles feed z0 0 := by
    rintro ⟨⟨s, hs, hdone⟩, -⟩
    have h : screwInit z0 = s := by simpa [screwRun] using hs
    subst h
    norm_num [screwDone, screwInit] at hdone
  refine ⟨h0, fun n hn => ?_⟩
  rcases Nat.eq_zero_or_pos n with rfl | h
  · exact absurd hn h0
  · exact h

/-- C10 witness: a concretely terminating run needs at least one iteration. -/
theorem screw_no_zero_iteration_exit_witness :
    1 ≤ 1 ∧ ¬ screwTerminatesAt (fun _ => 0) (fun _ => some 0) 1 0 := by
  have hterm : screwTerminatesAt (fun _ => 0) (fun _ => some 0) 1 1 := by
    constructor
    · have htot :=
        screwRun_total (fun _ => 0) (fun _ => some 0) 1 1 (by intro j _; simp)
      rcases Option.isSome_iff_exists.mp htot with ⟨s, hs⟩
      refine ⟨s, hs, ?_⟩
      have hz2 := screwRun_z2 (fun _ => 0) (fun _ => some 0) 1 0 s hs
      have hz0 := (screwRun_fields (fun _ => 0) (fun _ => some 0) 1 1 s hs).1
      have hv : (0 : ℝ) = s.z2 := by simpa using hz2
      simp only [screwDone, hz0, ← hv]
      norm_num
    · intro k hk s hs
      interval_cases k
      have h : screwInit 1 = s := by simpa [screwRun] using hs
      subst h
      norm_num [screwDone, screwInit]
  exact ⟨(screw_no_zero_iteration_exit (fun _ => 0) (fun _ => some 0) 1).2 1 hterm,
    (screw_no_zero_iteration_exit (fun _ => 0) (fun _ => some 0) 1).1⟩

/-- C5: driven by the synthetic height sequence z0 = 0.100 and per-iteration
samples 0.100, 0.098, 0.096, 0.093 with threshold 0.006, the loop executes
exactly 4 iterations and then terminates in the Done state
(0.100 - 0.093 = 0.007 ≥ 0.006), for every joint-angle sequence. -/
theorem screw_synthetic_sequence_four_iters (angles : ℕ → ℝ) :
    screwTerminatesAt angles feedC5 0.1 4 := by
  constructor
  · have htot := screwRun_total angles feedC5 0.1 4
      (by intro j hj; interval_cases j <;> simp [feedC5])
    rcases Option.isSome_iff_exists.mp htot with ⟨s, hs⟩
    refine ⟨s, hs, ?_⟩
    have hz2 := screwRun_z2 angles feedC5 0.1 3 s hs
    have hz0 := (screwRun_fields angles feedC5 0.1 4 s hs).1
    have hv : feedC5 3 = some 0.093 := by simp [feedC5]
    rw [hv] at hz2
    have hsz : (0.093 : ℝ) = s.z2 := by simpa using hz2
    simp only [screwDone, hz0, ← hsz]
    norm_num
  · intro k hk s hs
    have hz0 := (screwRun_fields angles feedC5 0.1 k s hs).1
    interval_cases k
    · have h : screwInit 0.1 = s := by simpa [screwRun] using hs
      subst h
      norm_num [screwDone, screwInit]
    · have hz2 := screwRun_z2 angles feedC5 0.1 0 s hs
      have hv : feedC5 0 = some 0.100 := by simp [feedC5]
      rw [hv] at hz2
      have hsz : (0.100 : ℝ) = s.z2 := by simpa using hz2
      simp only [screwDone, hz0, ← hsz]
      norm_num
    · have hz2 := screwRun_z2 angles feedC5 0.1 1 s hs
      have hv : feedC5 1 = some 0.098 := by simp [feedC5]
      rw [hv] at hz2
      have hsz : (0.098 : ℝ) = s.z2 := by simpa using hz2
      simp only [screwDone, hz0, ← hsz]
      norm_num
    · have hz2 := screwRun_z2 angles feedC5 0.1 2 s hs
      have hv : feedC5 2 = some 0.096 := by simp [feedC5]
      rw [hv] at hz2
      have hsz : (0.096 : ℝ) = s.z2 := by simpa using hz2
      simp only [screwDone, hz0, ← hsz]
      norm_num

/-- C5 witness: the synthetic run with a constant angle oracle. -/
theorem screw_synthetic_sequence_four_iters_witness :
    screwTerminatesAt (fun _ => 0) feedC5 0.1 4 :=
  screw_synthetic_sequence_four_iters (fun _ => 0)

/-- C8: the loop has no iteration bound or timeout.  If no delivered sample
ever satisfies `z0 - z ≥ 0.006`, the loop terminates at no iteration count;
and once the feed stops producing samples (a `none` entry), every later
prefix of the run is cut off at the blocking wait, stalling indefinitely. -/
theorem screw_loop_unbounded (angles : ℕ → ℝ) (feed : ℕ → Option ℝ)
    (z0 : ℝ) :
    ((∀ k v, feed k = some v → z0 - v < 0.006) →
      ∀ n, ¬ screwTerminatesAt angles feed z0 n) ∧
    (∀ m, feed m = none → ∀ n, m < n → screwRun angles feed z0 n = none) := by
  constructor
  · rintro hfeed n ⟨⟨s, hs, hdone⟩, -⟩
    rcases n with _ | m
    · have h : screwInit z0 = s := by simpa [screwRun] using hs
      subst h
      norm_num [screwDone, screwInit] at hdone
    · have hz2 := screwRun_z2 angles feed z0 m s hs
      have hz0 := (screwRun_fields angles feed z0 (m + 1) s hs).1
      have hlt := hfeed m s.z2 hz2
      simp only [screwDone, hz0] at hdone
      linarith
  · intro m hm n hn
    induction n with
    | zero => omega
    | succ n ih =>
      rcases Nat.lt_or_ge m n with h | h
      · rw [screwRun, ih h]
        rfl
      · have hmn : m = n := by omega
        subst hmn
        rw [screwRun]
        cases hrun : screwRun angles feed z0 m with
        | none => rfl
        | some s =>
          have hit : s.iters = m :=
            (screwRun_fields angles feed z0 m s hrun).2.2
          simp [screwStep, hit, hm]

/-- C8 witness: a never-progressing feed never terminates, and a feed that
stops at sample 0 cuts the run off from iteration 1 on. -/
theorem screw_loop_unbounded_witness :
    ¬ screwTerminatesAt (fun _ => 0) (fun _ => some 0.1) 0.1 3 ∧
    screwRun (fun _ => 0) (fun _ => none) 0.1 1 = none := by
  constructor
  · refine (screw_loop_unbounded (fun _ => 0) (fun _ => some 0.1) 0.1).1 ?_ 3
    intro k v hv
    have hv' : (0.1 : ℝ) = v := by simpa using hv
    rw [← hv']
    norm_num
  · exact (screw_loop_unbounded (fun _ => 0) (fun _ => none) 0.1).2 0 rfl 1
      (by norm_num)

/-- C9: the intermediate height variable `z1` is assigned once at loop entry
and never updated or read: every reachable state has `z1 = z0`, and the
controller with `z1` removed is behaviorally equivalent — same run (hence
same actuation trace and iteration count) and same termination, for every
angle oracle and sensor feed. -/
theorem screw_z1_dead_equiv (angles : ℕ → ℝ) (feed : ℕ → Option ℝ)
    (z0 : ℝ) :
    (∀ n, (screwRun angles feed z0 n).map eraseZ1 =
      screwRunNZ angles feed z0 n) ∧
    (∀ n s, screwRun angles feed z0 n = some s → s.z1 = z0) ∧
    (∀ n, screwTerminatesAt angles feed z0 n ↔
      screwTerminatesAtNZ angles feed z0 n) := by
  have hmap : ∀ n, (screwRun angles feed z0 n).map eraseZ1 =
      screwRunNZ angles feed z0 n := by
    intro n
    induction n with
    | zero => simp [screwRun, screwRunNZ, screwInit, eraseZ1]
    | succ n ih =>
      rw [screwRun, screwRunNZ, ← ih]
      cases hrun : screwRun angles feed z0 n with
      | none => rfl
      | some s =>
        cases hfeed : feed s.iters with
        | none => simp [screwStep, screwStepNZ, eraseZ1, hfeed]
        | some zv => simp [screwStep, screwStepNZ, eraseZ1, hfeed]
  refine ⟨hmap, ?_, ?_⟩
  · intro n s hs
    exact (screwRun_fields angles feed z0 n s hs).2.1
  · intro n
    constructor
    · rintro ⟨⟨s, hs, hd⟩, hmin⟩
      refine ⟨⟨eraseZ1 s, ?_, hd⟩, ?_⟩
      · rw [← hmap n, hs]
        rfl
      · intro k hk t ht
        rw [← hmap k] at ht
        rcases Option.map_eq_some'.mp ht with ⟨s', hs', ht'⟩
        subst ht'
        exact hmin k hk s' hs'
    · rintro ⟨⟨t, ht, hd⟩, hmin⟩
      rw [← hmap n] at ht
      rcases Option.map_eq_some'.mp ht with ⟨s, hs, hts⟩
      subst hts
      refine ⟨⟨s, hs, hd⟩, ?_⟩
      intro k hk s' hs'
      have hnz : screwRunNZ angles feed z0 k = some (eraseZ1 s') := by
        rw [← hmap k, hs']
        rfl
      exact hmin k hk (eraseZ1 s') hnz

/-- C6: the entry height reference `z0` is never modified by any iteration;
when the joint value delivered by the plant is the previously commanded one,
a read angle at or above the forward limit `π/2` triggers exactly one Reset
transition, whose command `-7π/8` is below the limit, so the next iteration
is an Engage; the Reset transition leaves the progress reference unchanged
(it is the same `z0` invariant). -/
theorem screw_reset_once (angles : ℕ → ℝ) (feed : ℕ → Option ℝ) (z0 : ℝ)
    (hplant : ∀ i, angles (i + 1) = screwCmd (angles i)) :
    (∀ n s, screwRun angles feed z0 n = some s → s.z0 = z0) ∧
    (∀ i, angles i ≥ Real.pi / 2 →
      screwIterActions (angles i) =
        [ScrewAction.openGripper, ScrewAction.goJoint (-7 * Real.pi / 8)] ∧
      screwCmd (angles i) = -7 * Real.pi / 8 ∧
      -7 * Real.pi / 8 < Real.pi / 2 ∧
      screwIterActions (angles (i + 1)) =
        [ScrewAction.closeGripper, ScrewAction.settle,
         ScrewAction.goJoint (7 * Real.pi / 8)]) := by
  have hneg : -7 * Real.pi / 8 < Real.pi / 2 := by
    have := Real.pi_pos
    linarith
  constructor
  · intro n s hs
    exact (screwRun_fields angles feed z0 n s hs).1
  · intro i hi
    refine ⟨?_, ?_, hneg, ?_⟩
    · rw [screwIterActions, if_pos hi]
    · rw [screwCmd, if_pos hi]
    · rw [hplant i, screwCmd, if_pos hi, screwIterActions,
        if_neg (not_le.mpr hneg)]

/-- C6 witness: the coupled angle sequence starting at the forward limit. -/
theorem screw_reset_once_witness :
    (∀ i, anglesPlant (i + 1) = screwCmd (anglesPlant i)) ∧
    (∀ n s, screwRun anglesPlant (fun _ => some 0.1) 0.1 n = some s →
      s.z0 = 0.1) ∧
    screwCmd (anglesPlant 0) = -7 * Real.pi / 8 := by
  have hge : anglesPlant 0 ≥ Real.pi / 2 := by
    show Real.pi / 2 ≤ anglesPlant 0
    have h0 : anglesPlant 0 = Real.pi := rfl
    rw [h0]
    linarith [Real.pi_pos]
  exact ⟨fun i => rfl,
    (screw_reset_once anglesPlant (fun _ => some 0.1) 0.1 (fun i => rfl)).1,
    ((screw_reset_once anglesPlant (fun _ => some 0.1) 0.1
      (fun i => rfl)).2 0 hge).2.1⟩

/-- C4: each iteration branches on the read angle — at or above `π/2` it
performs the Reset actions (open gripper, command the joint back to `-7π/8`),
otherwise the Engage actions (close gripper, settle dwell, command the joint
to `7π/8`) — then blocks for the next height sample; and the loop exits after
exactly `n ≥ 1` iterations iff every earlier sample keeps
`z0 - z < 0.006` and the `n`-th sample satisfies `z0 - z ≥ 0.006`. -/
theorem screw_loop_protocol (angles : ℕ → ℝ) (feed : ℕ → Option ℝ)
    (z0 : ℝ) :
    (∀ i, angles i ≥ Real.pi / 2 →
      screwIterActions (angles i) =
        [ScrewAction.openGripper, ScrewAction.goJoint (-7 * Real.pi / 8)]) ∧
    (∀ i, angles i < Real.pi / 2 →
      screwIterActions (angles i) =
        [ScrewAction.closeGripper, ScrewAction.settle,
         ScrewAction.goJoint (7 * Real.pi / 8)]) ∧
    (∀ n s, screwRun angles feed z0 n = some s →
      screwRun angles feed z0 (n + 1) =
        (feed n).map fun zNew =>
          { s with
            z2 := zNew
            iters := n + 1
            trace := s.trace ++ screwIterActions (angles n) ++
              [ScrewAction.waitSample] }) ∧
    (∀ n, 1 ≤ n →
      (screwTerminatesAt angles feed z0 n ↔
        (∀ k, k + 1 < n → ∃ v, feed k = some v ∧ z0 - v < 0.006) ∧
        (∃ v, feed (n - 1) = some v ∧ z0 - v ≥ 0.006))) := by
  refine ⟨?_, ?_, screwRun_succ_of_some angles feed z0, ?_⟩
  · intro i hi
    rw [screwIterActions, if_pos hi]
  · intro i hi
    rw [screwIterActions, if_neg (not_le.mpr hi)]
  · intro n hn
    obtain ⟨m, rfl⟩ : ∃ m, n = m + 1 := ⟨n - 1, by omega⟩
    constructor
    · rintro ⟨⟨s, hs, hd⟩, hmin⟩
      constructor
      · intro k hk
        have hsome : (screwRun angles feed z0 (k + 1)).isSome :=
          screwRun_mono angles feed z0 (m + 1)
            (Option.isSome_iff_exists.mpr ⟨s, hs⟩) (k + 1) (by omega)
        rcases Option.isSome_iff_exists.mp hsome with ⟨s', hs'⟩
        refine ⟨s'.z2, screwRun_z2 angles feed z0 k s' hs', ?_⟩
        have hz0' := (screwRun_fields angles feed z0 (k + 1) s' hs').1
        have hnd := hmin (k + 1) (by omega) s' hs'
        simp only [screwDone, hz0'] at hnd
        linarith [not_le.mp hnd]
      · refine ⟨s.z2, ?_, ?_⟩
        · simpa using screwRun_z2 angles feed z0 m s hs
        · have hz0' := (screwRun_fields angles feed z0 (m + 1) s hs).1
          simpa only [screwDone, hz0'] using hd
    · rintro ⟨hbefore, v, hv, hge⟩
      simp only [Nat.add_sub_cancel] at hv
      have htot : (screwRun angles feed z0 (m + 1)).isSome := by
        refine screwRun_total angles feed z0 (m + 1) ?_
        intro j hj
        rcases Nat.lt_succ_iff_lt_or_eq.mp hj with h | rfl
        · rcases hbefore j (by omega) with ⟨v', hv', -⟩
          simp [hv']
        · simp [hv]
      rcases Option.isSome_iff_exists.mp htot with ⟨s, hs⟩
      constructor
      · refine ⟨s, hs, ?_⟩
        have hz2 := screwRun_z2 angles feed z0 m s hs
        have hz0' := (screwRun_fields angles feed z0 (m + 1) s hs).1
        have hvs : v = s.z2 := by
          have := hv.symm.trans hz2
          simpa using this
        simp only [screwDone, hz0', ← hvs]
        exact hge
      · intro k hk s' hs'
        rcases Nat.eq_zero_or_pos k with rfl | hkpos
        · have h : screwInit z0 = s' := by simpa [screwRun] using hs'
          subst h
          norm_num [screwDone, screwInit]
        · obtain ⟨j, rfl⟩ : ∃ j, k = j + 1 := ⟨k - 1, by omega⟩
          have hz2 := screwRun_z2 angles feed z0 j s' hs'
          have hz0' := (screwRun_fields angles feed z0 (j + 1) s' hs').1
          rcases hbefore j (by omega) with ⟨v', hv', hlt⟩
          have hvs : v' = s'.z2 := by
            have := hv'.symm.trans hz2
            simpa using this
          simp only [screwDone, hz0', ← hvs]
          linarith

/-- C4 witness: the protocol instantiated on concrete oracles — an
above-limit read angle yields the Reset actions, a below-limit one the
Engage actions, the successor-run equation holds at the initial state, and
the exit characterization holds for the one-iteration terminating run. -/
theorem screw_loop_protocol_witness :
    screwIterActions Real.pi =
      [ScrewAction.openGripper, ScrewAction.goJoint (-7 * Real.pi / 8)] ∧
    screwIterActions 0 =
      [ScrewAction.closeGripper, ScrewAction.settle,
       ScrewAction.goJoint (7 * Real.pi / 8)] ∧
    screwRun (fun _ => Real.pi) (fun _ => some 0) 1 1 =
      (some 0).map (fun zNew =>
        { screwInit 1 with
          z2 := zNew
          iters := 1
          trace := (screwInit 1).trace ++ screwIterActions Real.pi ++
            [ScrewAction.waitSample] }) ∧
    (screwTerminatesAt (fun _ => Real.pi) (fun _ => some 0) 1 1 ↔
      (∀ k, k + 1 < 1 → ∃ v, (fun _ => some (0 : ℝ)) k = some v ∧
        (1 : ℝ) - v < 0.006) ∧
      (∃ v, (fun _ => some (0 : ℝ)) 0 = some v ∧ (1 : ℝ) - v ≥ 0.006)) := by
  have hpi : Real.pi ≥ Real.pi / 2 := by linarith [Real.pi_pos]
  have h0 : (0 : ℝ) < Real.pi / 2 := by linarith [Real.pi_pos]
  refine ⟨(screw_loop_protocol (fun _ => Real.pi) (fun _ => some 0) 1).1 0 hpi,
    (screw_loop_protocol (fun _ => (0 : ℝ)) (fun _ => some 0) 1).2.1 0 h0,
    ?_, ?_⟩
  · exact (screw_loop_protocol (fun _ => Real.pi) (fun _ => some 0) 1).2.2.1 0
      (screwInit 1) rfl
  · exact (screw_loop_protocol (fun _ => Real.pi) (fun _ => some 0) 1).2.2.2 1
      le_rfl

/-- C9 witness: the equivalence evaluated on a concrete feed. -/
theorem screw_z1_dead_equiv_witness :
    (screwRun (fun _ => 0) feedC5 0.1 2).map eraseZ1 =
      screwRunNZ (fun _ => 0) feedC5 0.1 2 ∧
    (screwInit 0.1).z1 = 0.1 :=
  ⟨(screw_z1_dead_equiv (fun _ => 0) feedC5 0.1).1 2,
   (screw_z1_dead_equiv (fun _ => 0) feedC5 0.1).2.1 0 (screwInit 0.1) rfl⟩

/-! ## Claim theorems: frame builder / pose synthesizer -/

/-- C1: whenever the sensed z-axis projection onto world-up passes the
`np.isclose(z_axis[2], 1)` test, the degenerate branch fires and returns
exactly the fixed canonical basis (z = [1,0,0], x = [0,1,0], y = [0,0,1]),
the fixed fixture offsets -0.0 and 0.07, and the branch's fixed fallback
quaternions, independent of the other components of the input quaternion. -/
theorem degenerate_branch_fixed_output (q : Quat)
    (h : npIsclose (zAxisOf q).z 1) :
    frameBuilder q =
      { zAxis := ⟨1, 0, 0⟩
        xAxis := ⟨0, 1, 0⟩
        yAxis := ⟨0, 0, 1⟩
        q2 := quaternionFromEuler Real.pi 0 (-(tau / 8))
        posOffsetFixtureX := -0.0
        posOffsetFixtureZ := 0.07
        qFixture := quaternionFromEuler Real.pi 0 (tau / 8) } :=
  frameBuilder_pos q h

/-- C1 witness: the identity orientation has its z-axis aligned with world
up and selects the degenerate branch. -/
theorem degenerate_branch_fixed_output_witness :
    npIsclose (zAxisOf ⟨0, 0, 0, 1⟩).z 1 ∧
    (frameBuilder ⟨0, 0, 0, 1⟩).posOffsetFixtureZ = 0.07 := by
  have hz : zAxisOf ⟨0, 0, 0, 1⟩ = ⟨0, 0, 1⟩ := by
    rw [zAxisOf_of_unit ⟨0, 0, 0, 1⟩ (by norm_num [quatNormSq])]
    norm_num
  have h : npIsclose (zAxisOf ⟨0, 0, 0, 1⟩).z 1 := by
    rw [hz]
    norm_num [npIsclose]
  exact ⟨h, by rw [degenerate_branch_fixed_output ⟨0, 0, 0, 1⟩ h]⟩

/-- C2 (evaluation at the failing input): for the unit quaternion
(1, 0, 0, 0) the sensed z-axis is (0, 0, -1), exactly antiparallel to world
up; the `np.isclose(z_axis[2], 1)` test does not divert it to the degenerate
branch, the general branch is entered with a zero cross product, and the
construction silently normalizes it — dividing by a zero norm and returning
a degenerate (non-unit) basis vector instead of reporting a numeric
synthesis failure. -/
theorem general_branch_antiparallel_silent :
    zAxisOf ⟨1, 0, 0, 0⟩ = ⟨0, 0, -1⟩ ∧
    ¬ npIsclose (zAxisOf ⟨1, 0, 0, 0⟩).z 1 ∧
    cross3 (zAxisOf ⟨1, 0, 0, 0⟩) up3 = ⟨0, 0, 0⟩ ∧
    norm3 (cross3 (zAxisOf ⟨1, 0, 0, 0⟩) up3) = 0 ∧
    (frameBuilder ⟨1, 0, 0, 0⟩).xAxis = ⟨0, 0, 0⟩ := by
  refine ⟨zAxisOf_antiparallel, not_isclose_antiparallel,
    cross3_antiparallel_up3, ?_, frameBuilder_antiparallel_xAxis⟩
  rw [cross3_antiparallel_up3]
  norm_num [norm3, dot3, Real.sqrt_zero]

/-- C3 counterexample: the unit quaternion (1, 0, 0, 0) falls into the
general branch with a zero cross product, and the returned x basis vector
is not within 1e-6 of unit norm. -/
theorem frame_orthonormal_fails_at_antiparallel :
    quatNormSq ⟨1, 0, 0, 0⟩ = 1 ∧
    ¬ (|1 - norm3 (frameBuilder ⟨1, 0, 0, 0⟩).xAxis| < 1e-6) := by
  refine ⟨by norm_num [quatNormSq], ?_⟩
  rw [frameBuilder_antiparallel_xAxis]
  norm_num [norm3, dot3, Real.sqrt_zero]

/-- C3 amended: for every unit quaternion whose sensed z-axis is not exactly
antiparallel to world up (the input on which the general branch divides by a
zero cross-product norm), the returned basis vectors are pairwise orthogonal
(each dot product below 1e-6) and unit norm (within 1e-6 of 1), and in the
general branch they are constructed as x = normalize(z x up) and
y = normalize(z x x) from the sensed z-axis. -/
theorem frame_orthonormal_amended (q : Quat) (hu : quatNormSq q = 1)
    (hz : zAxisOf q ≠ ⟨0, 0, -1⟩) :
    (|dot3 (frameBuilder q).zAxis (frameBuilder q).xAxis| < 1e-6 ∧
     |dot3 (frameBuilder q).zAxis (frameBuilder q).yAxis| < 1e-6 ∧
     |dot3 (frameBuilder q).xAxis (frameBuilder q).yAxis| < 1e-6) ∧
    (|1 - norm3 (frameBuilder q).zAxis| < 1e-6 ∧
     |1 - norm3 (frameBuilder q).xAxis| < 1e-6 ∧
     |1 - norm3 (frameBuilder q).yAxis| < 1e-6) ∧
    (¬ npIsclose (zAxisOf q).z 1 →
      (frameBuilder q).zAxis = zAxisOf q ∧
      (frameBuilder q).xAxis = normalize3 (cross3 (zAxisOf q) up3) ∧
      (frameBuilder q).yAxis =
        normalize3 (cross3 (zAxisOf q) (frameBuilder q).xAxis)) := by
  have hzz : dot3 (zAxisOf q) (zAxisOf q) = 1 := zAxis_unit q hu
  by_cases hcl : npIsclose (zAxisOf q).z 1
  · rw [frameBuilder_pos q hcl]
    refine ⟨⟨?_, ?_, ?_⟩, ⟨?_, ?_, ?_⟩, fun hcon => absurd hcl hcon⟩ <;>
      norm_num [dot3, norm3, Real.sqrt_one]
  · have hxy : ¬ ((zAxisOf q).x = 0 ∧ (zAxisOf q).y = 0) := by
      rintro ⟨hx, hy⟩
      have hzz2 : (zAxisOf q).z * (zAxisOf q).z = 1 := by
        unfold dot3 at hzz
        rw [hx, hy] at hzz
        linarith
      rcases mul_self_eq_one_iff.mp hzz2 with h1 | h1
      · refine hcl ?_
        unfold npIsclose
        rw [h1]
        norm_num
      · exact hz (by ext <;> simp [hx, hy, h1])
    have hne : dot3 (cross3 (zAxisOf q) up3) (cross3 (zAxisOf q) up3) ≠ 0 := by
      rw [cross3_up3]
      intro h0
      simp only [dot3] at h0
      exact hxy ⟨by nlinarith [mul_self_nonneg (zAxisOf q).x,
          mul_self_nonneg (zAxisOf q).y],
        by nlinarith [mul_self_nonneg (zAxisOf q).x,
          mul_self_nonneg (zAxisOf q).y]⟩
    obtain ⟨hd1, hd2, hd3, hn2, hn3⟩ := basis_orthonormal (zAxisOf q) hzz hne
    rw [frameBuilder_neg q hcl]
    dsimp only
    refine ⟨⟨?_, ?_, ?_⟩, ⟨?_, ?_, ?_⟩, fun _ => ⟨rfl, rfl, rfl⟩⟩
    · rw [hd1]
      norm_num
    · rw [hd2]
      norm_num
    · rw [hd3]
      norm_num
    · unfold norm3
      rw [hzz, Real.sqrt_one]
      norm_num
    · rw [hn2]
      norm_num
    · rw [hn3]
      norm_num

/-- C3 witness: a unit quaternion in the general branch (sensed z-axis
(0, -0.96, 0.28)) satisfies the hypotheses of the amended theorem. -/
theorem frame_orthonormal_amended_witness :
    quatNormSq ⟨0.6, 0, 0, 0.8⟩ = 1 ∧
    zAxisOf ⟨0.6, 0, 0, 0.8⟩ ≠ ⟨0, 0, -1⟩ ∧
    |1 - norm3 (frameBuilder ⟨0.6, 0, 0, 0.8⟩).xAxis| < 1e-6 := by
  have hu : quatNormSq ⟨0.6, 0, 0, 0.8⟩ = 1 := by norm_num [quatNormSq]
  have hzval : zAxisOf ⟨0.6, 0, 0, 0.8⟩ = ⟨0, -0.96, 0.28⟩ := by
    rw [zAxisOf_of_unit ⟨0.6, 0, 0, 0.8⟩ hu]
    norm_num
  have hz : zAxisOf ⟨0.6, 0, 0, 0.8⟩ ≠ ⟨0, 0, -1⟩ := by
    rw [hzval]
    norm_num
  exact ⟨hu, hz,
    ((frame_orthonormal_amended ⟨0.6, 0, 0, 0.8⟩ hu hz).2.1).2.1⟩

/-! ## Evaluation of the synthesis pipeline at the unit quaternion
(0.6, 0, 0, 0.8), whose sensed z-axis (0, -0.96, 0.28) selects the
general branch -/

theorem zAxisOf_sixEight : zAxisOf ⟨0.6, 0, 0, 0.8⟩ = ⟨0, -0.96, 0.28⟩ := by
  rw [zAxisOf_of_unit ⟨0.6, 0, 0, 0.8⟩ (by norm_num [quatNormSq])]
  norm_num

theorem not_isclose_sixEight : ¬ npIsclose (zAxisOf ⟨0.6, 0, 0, 0.8⟩).z 1 := by
  rw [zAxisOf_sixEight]
  unfold npIsclose
  rw [show ((⟨0, -0.96, 0.28⟩ : Vec3).z - 1 : ℝ) = -(0.72) by norm_num,
    abs_neg, abs_of_nonneg (by norm_num : (0 : ℝ) ≤ 0.72), abs_one]
  norm_num

theorem frameBuilder_sixEight :
    frameBuilder ⟨0.6, 0, 0, 0.8⟩ =
      { zAxis := ⟨0, -0.96, 0.28⟩
        xAxis := ⟨-1, 0, 0⟩
        yAxis := ⟨0, -0.28, -0.96⟩
        q2 := quaternionFromEuler 0 0 (-(Real.pi / 4))
        posOffsetFixtureX := -0.1027
        posOffsetFixtureZ := 0
        qFixture :=
          quaternionFromEuler (-(tau / 4)) (-(tau / 8)) (-(tau / 4)) } := by
  rw [frameBuilder_neg ⟨0.6, 0, 0, 0.8⟩ not_isclose_sixEight, zAxisOf_sixEight]
  have hc : cross3 (⟨0, -0.96, 0.28⟩ : Vec3) up3 = ⟨-0.96, 0, 0⟩ := by
    rw [cross3_up3]
    norm_num
  rw [hc]
  have hn1 : norm3 (⟨-0.96, 0, 0⟩ : Vec3) = 0.96 := by
    unfold norm3 dot3
    rw [show ((-0.96 : ℝ) * -0.96 + 0 * 0 + 0 * 0) = 0.96 ^ 2 by norm_num,
      Real.sqrt_sq (by norm_num)]
  have hx : normalize3 (⟨-0.96, 0, 0⟩ : Vec3) = ⟨-1, 0, 0⟩ := by
    unfold normalize3
    rw [hn1]
    norm_num
  rw [hx]
  have hc2 : cross3 (⟨0, -0.96, 0.28⟩ : Vec3) ⟨-1, 0, 0⟩ =
      ⟨0, -0.28, -0.96⟩ := by
    unfold cross3
    norm_num
  rw [hc2]
  have hn2 : norm3 (⟨0, -0.28, -0.96⟩ : Vec3) = 1 := by
    unfold norm3 dot3
    rw [show ((0 : ℝ) * 0 + -0.28 * -0.28 + -0.96 * -0.96) = 1 ^ 2 by norm_num,
      Real.sqrt_sq (by norm_num)]
  have hy : normalize3 (⟨0, -0.28, -0.96⟩ : Vec3) = ⟨0, -0.28, -0.96⟩ := by
    unfold normalize3
    rw [hn2]
    norm_num
  rw [hy]

theorem sqrt_196 : Real.sqrt (1.96 * 1) = 1.4 := by
  rw [show (1.96 * 1 : ℝ) = 1.4 ^ 2 by norm_num, Real.sqrt_sq (by norm_num)]

theorem sqrt_49 : Real.sqrt 49 = 7 := by
  rw [show (49 : ℝ) = 7 ^ 2 by norm_num, Real.sqrt_sq (by norm_num)]

theorem sqrt_25 : Real.sqrt 25 = 5 := by
  rw [show (25 : ℝ) = 5 ^ 2 by norm_num, Real.sqrt_sq (by norm_num)]

theorem frameQuat_sixEight :
    frameQuat ⟨0.6, 0, 0, 0.8⟩ = ⟨0.7, -0.7, 0.1, 0.1⟩ := by
  unfold frameQuat
  rw [frameBuilder_sixEight]
  dsimp only
  unfold quaternionFromMatrix
  norm_num [matFromAxes, sqrt_196, sqrt_49, sqrt_25]

theorem q2_general_eval :
    quaternionFromEuler 0 0 (-(Real.pi / 4)) =
      ⟨0, 0, Real.sin (-(Real.pi / 4) / 2), Real.cos (-(Real.pi / 4) / 2)⟩ := by
  unfold quaternionFromEuler
  norm_num

/-- C7: the synthesized grasp orientation is the quaternion product with the
branch-specific secondary offset `q2` as the leading (left, outer) factor and
the frame-derived quaternion as the trailing (right, inner) factor; and at
the input quaternion (0.6, 0, 0, 0.8) swapping the multiplication order
yields a different orientation. -/
theorem grasp_orientation_order :
    (∀ qin, graspOrientation qin =
      quaternionMultiply (frameBuilder qin).q2 (frameQuat qin)) ∧
    quaternionMultiply (frameBuilder ⟨0.6, 0, 0, 0.8⟩).q2
        (frameQuat ⟨0.6, 0, 0, 0.8⟩) ≠
      quaternionMultiply (frameQuat ⟨0.6, 0, 0, 0.8⟩)
        (frameBuilder ⟨0.6, 0, 0, 0.8⟩).q2 := by
  refine ⟨fun qin => rfl, ?_⟩
  have hq2 : (frameBuilder ⟨0.6, 0, 0, 0.8⟩).q2 =
      quaternionFromEuler 0 0 (-(Real.pi / 4)) := by
    rw [frameBuilder_sixEight]
  rw [hq2, q2_general_eval, frameQuat_sixEight]
  intro h
  have hs : Real.sin (-(Real.pi / 4) / 2) < 0 := by
    rw [show (-(Real.pi / 4) / 2 : ℝ) = -(Real.pi / 8) by ring, Real.sin_neg]
    have hpos : 0 < Real.sin (Real.pi / 8) :=
      Real.sin_pos_of_pos_of_lt_pi (by positivity)
        (by linarith [Real.pi_pos])
    linarith
  simp only [quaternionMultiply, Quat.mk.injEq] at h
  have h1 := h.1
  nlinarith [h1, hs]
